import Mathlib

/-!
# Verification of the mikoshi-project chat assistant

Shallow embedding of the repository's prompt normalizer
(`src/utils/prompt_utils.py`), model-gateway dispatch
(`src/utils/llm_utils.py`), object-store helper (`src/utils/s3_utils.py`)
and conversation pipeline (`src/chatbot/*.py`), together with proofs of the
behavioural claims about them.

Strings manipulated by the normalizer and the object-store helper are
modelled as `List Char`.  Python's whitespace class (used both by the
regex `\s` and by `str.strip()`) is modelled by its ASCII part
`isPySpace`; the repository only ever feeds it prompt text.
-/

/-! ## Prompt normalizer (`src/utils/prompt_utils.py`, `clean_prompt`) -/

/-- The ASCII whitespace characters matched by Python's `\s` regex class and
stripped by `str.strip()`: space, tab, newline, carriage return, vertical
tab and form feed. -/
def isPySpace (c : Char) : Bool :=
  c = ' ' || c = '\t' || c = '\n' || c = '\r' || c = '\x0b' || c = '\x0c'

/-- The placeholder `clean_prompt` substitutes for newlines:
`text.replace('\n', '<NEWLINE>')`. -/
def marker : List Char := ['<', 'N', 'E', 'W', 'L', 'I', 'N', 'E', '>']

/-- `text.replace('\n', '<NEWLINE>')`. -/
def mark (l : List Char) : List Char :=
  l.flatMap fun c => if c = '\n' then marker else [c]

/-- Greedy left-to-right scan of `text.replace('<NEWLINE>', '\n')`: at each
position, if the placeholder starts here, emit a newline and skip its nine
characters, otherwise keep the character.  The first argument is structural
fuel (any bound on the length, see `unmarkGo_congr`). -/
def unmarkGo : Nat → List Char → List Char
  | 0, _ => []
  | _ + 1, [] => []
  | fuel + 1, c :: rest =>
    if marker.isPrefixOf (c :: rest) then '\n' :: unmarkGo fuel (rest.drop 8)
    else c :: unmarkGo fuel rest

/-- `text.replace('<NEWLINE>', '\n')`: Python's `str.replace` scans left to
right, replacing non-overlapping occurrences greedily. -/
def unmark (l : List Char) : List Char := unmarkGo l.length l

/-- One left-to-right pass replacing every maximal run of characters
satisfying `p` with a single space; the flag records whether we are inside
such a run.  With `p = isPySpace` this is `re.sub(r'\s+', ' ', text)`. -/
def runCollapseAux (p : Char → Bool) : Bool → List Char → List Char
  | _, [] => []
  | inRun, c :: rest =>
    if p c then
      if inRun then runCollapseAux p true rest
      else ' ' :: runCollapseAux p true rest
    else c :: runCollapseAux p false rest

/-- `re.sub(r'\s+', ' ', text)`. -/
def collapseWs (l : List Char) : List Char := runCollapseAux isPySpace false l

/-- `text.replace('\t', ' ')`. -/
def mapTab (l : List Char) : List Char :=
  l.map fun c => if c = '\t' then ' ' else c

/-- `text.replace('\\', '')`. -/
def stripBS (l : List Char) : List Char := l.filter fun c => !(c = '\\')

/-- `text.strip()`: drop leading and trailing Python whitespace. -/
def pyStrip (l : List Char) : List Char :=
  ((l.dropWhile isPySpace).reverse.dropWhile isPySpace).reverse

/-- `clean_prompt` from `src/utils/prompt_utils.py`, with the flags as
explicit arguments (Python defaults: `remove_backslashes=True`,
`collapse_whitespace=True`, `preserve_newlines=False`). -/
def clean_prompt (prompt : List Char)
    (remove_backslashes collapse_whitespace preserve_newlines : Bool) :
    List Char :=
  if prompt = [] then []
  else
    let t1 := if remove_backslashes then stripBS prompt else prompt
    let t2 := mapTab t1
    let t3 :=
      if collapse_whitespace then
        if preserve_newlines then unmark (collapseWs (mark t2))
        else collapseWs t2
      else t2
    pyStrip t3

/-- Modelled from the spec: "a version of the input where tabs/spaces are
collapsed but newlines untouched" — every maximal run of tabs and spaces
becomes one space, all other characters (newlines included) are kept.
This is the reference the spec's newline-preservation property compares
`clean_prompt` against; it is deliberately written from the spec's words,
not from the code. -/
def spec_collapse_tabs_spaces (l : List Char) : List Char :=
  runCollapseAux (fun c => c = ' ' || c = '\t') false l

/-- Internal description of what the placeholder round trip actually does to
a marker-free string: collapse runs of non-newline whitespace, keep
newlines. -/
def collapseNonNl (l : List Char) : List Char :=
  runCollapseAux (fun c => isPySpace c && !(c = '\n')) false l

/-- No two adjacent characters both satisfy `p` (used to state that
whitespace is already collapsed). -/
def noTwo (p : Char → Bool) (a b : Char) : Prop :=
  ¬(p a = true ∧ p b = true)

/-- Adjacent-pair constraints are decidable. -/
instance (p : Char → Bool) (a b : Char) : Decidable (noTwo p a b) :=
  inferInstanceAs (Decidable ¬(p a = true ∧ p b = true))

/-- Executable form of "whitespace is already collapsed": the string has no
two adjacent whitespace characters. -/
def collapsedWs : List Char → Bool
  | [] => true
  | [_] => true
  | a :: b :: t => (!(isPySpace a && isPySpace b)) && collapsedWs (b :: t)

/-! ## Conversation data model and chat pipeline
(`src/chatbot/memory.py`, `src/chatbot/graph.py`, `src/chatbot/service.py`) -/

/-- Message roles used by the pipeline (`HumanMessage` / `AIMessage`). -/
inductive Role where
  | human
  | assistant
deriving DecidableEq, Repr

/-- A LangChain message: a role and its text content. -/
structure Message where
  role : Role
  content : String
deriving DecidableEq, Repr

/-- `chatbot_node` from `src/chatbot/graph.py`: call the model on the whole
history and append its reply.  The remote model is an external collaborator,
so it enters as an oracle `gen`; by the provider contract its reply is an
assistant (`AIMessage`) message whose content is the generated text. -/
def chatbot_node (gen : List Message → String) (msgs : List Message) :
    List Message :=
  msgs ++ [⟨Role.assistant, gen msgs⟩]

/-- The compiled LangGraph app: entry point and finish point are both the
single `chatbot` node, so one invocation runs `chatbot_node` once. -/
def app_invoke (gen : List Message → String) (msgs : List Message) :
    List Message :=
  chatbot_node gen msgs

/-- `ChatbotService.chat` from `src/chatbot/service.py`: append the human
message, run the graph, read the tail message's content as the reply.
Returns the new conversation state together with the returned reply. -/
def chat (gen : List Message → String) (msgs : List Message)
    (user_input : String) : List Message × String :=
  let m1 := msgs ++ [⟨Role.human, user_input⟩]
  let m2 := app_invoke gen m1
  (m2, ((m2.getLast?).map Message.content).getD "")

/-- `chatbot_node` when the remote call can fail: `llm.invoke` is the first
statement of the node, and the append only happens after it returns, so a
raising call leaves the message list untouched and the exception escapes.
The oracle `gen` returns `Except`; the node propagates its error. -/
def chatbot_node_f (gen : List Message → Except String String)
    (msgs : List Message) : Except String (List Message) :=
  match gen msgs with
  | .error e => .error e
  | .ok s => .ok (msgs ++ [⟨Role.assistant, s⟩])

/-! ## Model gateway (`src/utils/llm_utils.py`, `initialize_llm`) -/

/-- One provider block of `config.yaml`: a model name and the
`model_params` mapping (`dict.get` is modelled by the `Option`-valued
lookup).  Parameter values are modelled as rationals. -/
structure ProviderCfg where
  model_name : String
  model_params : String → Option Rat

/-- The `llm_config.client` section: the provider name and the three
per-provider blocks (`Option` because a missing key raises `KeyError`). -/
structure ClientCfg where
  name : String
  openai : Option ProviderCfg
  bedrock : Option ProviderCfg
  gemini : Option ProviderCfg

/-- `str.upper()` (its ASCII part, which is all the repository's provider
names use). -/
def pyUpper (s : String) : String := ⟨s.data.map Char.toUpper⟩

/-- The constructed provider client, one variant per supported provider,
recording exactly the fields each branch of `initialize_llm` passes. -/
inductive LLMClient where
  | chatOpenAI (model : String) (temperature : Rat) (max_retries : Rat)
      (max_tokens : Rat) (top_p : Rat)
  | chatBedrockConverse (model : String) (temperature : Rat) (max_tokens : Rat)
  | chatGoogleGenerativeAI (model : String) (temperature : Rat)
      (max_output_tokens : Rat)
deriving DecidableEq

/-- The errors `initialize_llm` can raise at construction time:
`NotImplementedError` for SLIP, `ValueError` for unknown names, `KeyError`
for a missing provider block. -/
inductive InitErr where
  | notImpl (msg : String)
  | unsupported (msg : String)
  | keyErr (key : String)
deriving DecidableEq

/-- `initialize_llm` from `src/utils/llm_utils.py` (configuration loading
from the yaml file is external; the parsed `client` section is the input).
The provider name is upper-cased and dispatched through the if-chain of the
source, with each branch applying the source's `dict.get` defaults. -/
def init_llm (cfg : ClientCfg) : Except InitErr LLMClient :=
  let client_name := pyUpper cfg.name
  if client_name = "OPENAI" then
    match cfg.openai with
    | none => .error (.keyErr "openai")
    | some m =>
        .ok (.chatOpenAI m.model_name
          ((m.model_params "temperature").getD 0)
          ((m.model_params "max_retries").getD 3)
          ((m.model_params "max_output_tokens").getD 2048)
          ((m.model_params "top_p").getD 1))
  else if client_name = "BEDROCK" then
    match cfg.bedrock with
    | none => .error (.keyErr "bedrock")
    | some m =>
        .ok (.chatBedrockConverse m.model_name
          ((m.model_params "temperature").getD 0)
          ((m.model_params "max_gen_len").getD 2048))
  else if client_name = "GEMINI" then
    match cfg.gemini with
    | none => .error (.keyErr "gemini")
    | some m =>
        .ok (.chatGoogleGenerativeAI m.model_name
          ((m.model_params "temperature").getD 0)
          ((m.model_params "max_output_tokens").getD 2048))
  else if client_name = "SLIP" then
    .error (.notImpl "SLIP client not implemented yet.")
  else
    .error (.unsupported ("Unsupported LLM client: " ++ client_name))

/-! ## Object store helper (`src/utils/s3_utils.py`) -/

/-- Outcome of the remote `head_object` call inside `file_exists_in_s3`:
success, a `botocore` `ClientError` carrying its error code, or any other
raised exception (connection errors etc., which are not `ClientError`s). -/
inductive HeadOutcome where
  | success
  | clientErr (code : String)
  | transportErr (msg : String)
deriving DecidableEq

/-- Errors escaping `file_exists_in_s3`. -/
inductive S3Err where
  | client (code : String)
  | transport (msg : String)
deriving DecidableEq

/-- `S3Utils.file_exists_in_s3`: `try head_object; return True`, catch
`ClientError` and return `False` only for code `"404"`, re-raise any other
`ClientError`; exceptions that are not `ClientError`s are not caught. -/
def file_exists_in_s3 : HeadOutcome → Except S3Err Bool
  | .success => .ok true
  | .clientErr code =>
      if code = "404" then .ok false else .error (.client code)
  | .transportErr msg => .error (.transport msg)

/-- The case-insensitive extension test of `list_files_with_ext`:
`f["Key"].lower().endswith(ext.lower())`. -/
def keyExtMatch (key ext : List Char) : Bool :=
  (ext.map Char.toLower).isSuffixOf (key.map Char.toLower)

/-- `S3Utils.list_files_with_ext`: the paginator yields pages of keys under
the prefix (server-side, external); the loop accumulates every key when the
extension list is `None` or empty, and otherwise only the keys whose
lower-cased key ends with some lower-cased extension. -/
def list_files_with_ext (pages : List (List (List Char)))
    (extensions : Option (List (List Char))) : List (List Char) :=
  let noExt : Bool :=
    match extensions with
    | none => true
    | some l => l.isEmpty
  pages.foldl
    (fun acc page =>
      if noExt then acc ++ page
      else acc ++ page.filter fun k =>
        (extensions.getD []).any fun ext => keyExtMatch k ext)
    []

/-- The extension filter inside `S3Utils.copy_local_dir_to_s3`
(lines 190–196): when a non-empty extension list is given, keep the walked
file names satisfying `any(f.endswith(ext) ...)` — a case-sensitive suffix
test, unlike `list_files_with_ext`. -/
def copy_local_ext_filter (tgt_files : List (List Char))
    (extensions : Option (List (List Char))) : List (List Char) :=
  match extensions with
  | some exts =>
      if exts.isEmpty then tgt_files
      else tgt_files.filter fun f => exts.any fun ext => ext.isSuffixOf f
  | none => tgt_files

/-- Outcome of the `upload_file` transport call inside
`upload_file_to_s3`: success, a raised `FileNotFoundError` (missing local
file), or any other raised exception. -/
inductive UploadAttempt where
  | success
  | fnfError (msg : String)
  | otherError (msg : String)
deriving DecidableEq

/-- `S3Utils.upload_file_to_s3`: `try upload_file; return True`, catch only
`FileNotFoundError` and return `False`; everything else escapes. -/
def upload_file_to_s3 : UploadAttempt → Except String Bool
  | .success => .ok true
  | .fnfError _ => .ok false
  | .otherError msg => .error msg

-- Sanity checks of the embedding on concrete inputs.
example : clean_prompt "  hello   world  ".toList true true false = "hello world".toList := by
  decide
example : clean_prompt "a\\b".toList true true false = "ab".toList := by decide
example : clean_prompt "a\nb".toList true true false = "a b".toList := by decide
example : clean_prompt "a\nb".toList true true true = "a\nb".toList := by decide
example : clean_prompt "".toList true true true = "".toList := by decide
example : unmark ("x<NEWLINE>y".toList) = "x\ny".toList := by decide

/-! ## Claims: chat pipeline, gateway, object store -/

/-- C1: starting from an empty Conversation, a successful `chat` appends
exactly one human message with the input unchanged, immediately followed by
exactly one assistant message, and returns that assistant message's
content. -/
theorem C1_chat_round_trip (gen : List Message → String) (input : String) :
    ∃ a : Message,
      (chat gen [] input).1 = [⟨Role.human, input⟩, a] ∧
      a.role = Role.assistant ∧
      (chat gen [] input).2 = a.content := by
  refine ⟨⟨Role.assistant, gen [⟨Role.human, input⟩]⟩, ?_, rfl, ?_⟩ <;>
    simp [chat, app_invoke, chatbot_node]

/-- C2 (counterexample): on `"a\\b\t\tc\n\n d"` with
`preserve_newlines=True`, `clean_prompt` does not return `"ab c\nd"` as the
spec example states. -/
theorem C2_counterexample :
    clean_prompt "a\\b\t\tc\n\n d".toList true true true ≠ "ab c\nd".toList := by
  decide

/-- C2 (amended): the actual result is `"ab c\n\n d"` — the backslash is
removed and the tab run collapses to one space, but both newlines are
preserved (the placeholder substitution protects each one individually) and
the space after them survives as a single space. -/
theorem C2_example_value :
    clean_prompt "a\\b\t\tc\n\n d".toList true true true = "ab c\n\n d".toList := by
  decide

/-- C4: constructing the gateway with a provider name that upper-cases to
anything outside the three implemented providers (so also `SLIP` and any
unrecognized name) yields a construction-time error; no client is built, so
`generate` is never reachable for such a configuration. -/
theorem C4_unknown_provider_errors (cfg : ClientCfg)
    (h : pyUpper cfg.name ∉ (["OPENAI", "BEDROCK", "GEMINI"] : List String)) :
    ∃ e, init_llm cfg = .error e := by
  simp only [List.mem_cons, List.not_mem_nil, or_false, not_or] at h
  obtain ⟨h1, h2, h3⟩ := h
  simp only [init_llm, if_neg h1, if_neg h2, if_neg h3]
  by_cases h4 : pyUpper cfg.name = "SLIP"
  · rw [if_pos h4]
    exact ⟨_, rfl⟩
  · rw [if_neg h4]
    exact ⟨_, rfl⟩

/-- C4 witness: the unrecognized name `"FOO"` and the unimplemented
provider (written `"Slip"`, matched case-insensitively) both fail at
construction. -/
theorem C4_unknown_provider_errors_witness :
    (∃ e, init_llm ⟨"FOO", none, none, none⟩ = .error e) ∧
    (∃ e, init_llm ⟨"Slip", none, none, none⟩ = .error e) :=
  ⟨C4_unknown_provider_errors _ (by decide),
   C4_unknown_provider_errors _ (by decide)⟩

/-- C5: the existence check returns `false` exactly on a `ClientError` with
code `"404"`; every other `ClientError` is re-raised carrying the same
code, and an exception that is not a `ClientError` is never swallowed. -/
theorem C5_exists_check_characterization (o : HeadOutcome) :
    (file_exists_in_s3 o = .ok false ↔ o = .clientErr "404") ∧
    (∀ c, c ≠ "404" → file_exists_in_s3 (.clientErr c) = .error (.client c)) ∧
    (∀ m, file_exists_in_s3 (.transportErr m) = .error (.transport m)) := by
  refine ⟨?_, ?_, fun m => rfl⟩
  · cases o with
    | success => simp [file_exists_in_s3]
    | clientErr c => by_cases h : c = "404" <;> simp [file_exists_in_s3, h]
    | transportErr m => simp [file_exists_in_s3]
  · intro c hc
    simp [file_exists_in_s3, hc]

/-- C5 witness: a 403 is re-raised while a 404 yields `false`. -/
theorem C5_exists_check_witness :
    file_exists_in_s3 (.clientErr "403") = .error (.client "403") ∧
    file_exists_in_s3 (.clientErr "404") = .ok false :=
  ⟨(C5_exists_check_characterization (.clientErr "403")).2.1 "403" (by decide),
   (C5_exists_check_characterization (.clientErr "404")).1.mpr rfl⟩

/-- C6: if the remote model call inside the generation step fails, the node
appends no assistant message — the step produces no updated message list at
all — and the same failure propagates to the caller. -/
theorem C6_generation_failure_propagates
    (gen : List Message → Except String String) (msgs : List Message)
    (e : String) (h : gen msgs = .error e) :
    chatbot_node_f gen msgs = .error e := by
  simp [chatbot_node_f, h]

/-- C6 witness: a concrete failing generation propagates unchanged. -/
theorem C6_generation_failure_propagates_witness :
    chatbot_node_f (fun _ => .error "quota") [⟨Role.human, "hi"⟩] =
      .error "quota" :=
  C6_generation_failure_propagates _ _ _ rfl

/-- C9: a missing local file is reported only through the boolean result:
`upload_file_to_s3` returns `false` on `FileNotFoundError` instead of
raising, and `true` on success. -/
theorem C9_upload_missing_local_file (m : String) :
    upload_file_to_s3 (.fnfError m) = .ok false ∧
    upload_file_to_s3 .success = .ok true :=
  ⟨rfl, rfl⟩

/-- C10: the local-to-remote sync filter is case-sensitive (`c.TXT` is
dropped by `[".txt"]`) while the remote listing filter is case-insensitive
(`c.TXT` is kept). -/
theorem C10_local_filter_case_sensitive :
    copy_local_ext_filter ["a.txt".toList, "c.TXT".toList]
        (some [".txt".toList]) = ["a.txt".toList] ∧
    list_files_with_ext [["a.txt".toList, "b.json".toList, "c.TXT".toList]]
        (some [".txt".toList]) = ["a.txt".toList, "c.TXT".toList] := by
  exact ⟨by decide, by decide⟩

/-- Accumulating `acc ++ f x` over a list from `init` is `init` followed by
the concatenation of the `f x`. -/
theorem foldl_acc_append {α β : Type} (f : α → List β) (pages : List α) :
    ∀ init : List β,
      pages.foldl (fun acc x => acc ++ f x) init = init ++ pages.flatMap f := by
  induction pages with
  | nil => intro init; simp
  | cons p ps ih => intro init; simp [List.foldl_cons, ih, List.append_assoc]

/-- Filtering a concatenation of pages filters each page. -/
theorem flatMap_id_filter {α : Type} (q : α → Bool) (pages : List (List α)) :
    (pages.flatMap id).filter q = pages.flatMap fun p => p.filter q := by
  induction pages with
  | nil => rfl
  | cons p ps ih => simp only [List.flatMap_cons, id_eq, List.filter_append, ih]

/-- C7: with a non-empty extension list the listing returns exactly the
keys under the prefix whose lower-cased key ends in some lower-cased
extension (in order); with an absent or empty list it returns every key. -/
theorem C7_listing_extension_filter (pages : List (List (List Char)))
    (exts : Option (List (List Char))) :
    (∀ l, exts = some l → l ≠ [] →
      list_files_with_ext pages exts =
        (pages.flatMap id).filter fun k => l.any fun ext => keyExtMatch k ext) ∧
    ((exts = none ∨ exts = some []) →
      list_files_with_ext pages exts = pages.flatMap id) := by
  constructor
  · rintro l rfl hne
    have hni : l.isEmpty = false := by
      cases l with
      | nil => exact absurd rfl hne
      | cons a t => rfl
    simp only [list_files_with_ext, hni, Bool.false_eq_true, if_false,
      Option.getD_some]
    rw [foldl_acc_append, List.nil_append, flatMap_id_filter]
  · rintro (rfl | rfl) <;>
      simp only [list_files_with_ext, List.isEmpty_nil, if_true] <;>
      rw [show (fun (acc page : List (List Char)) => acc ++ page) =
            fun acc page => acc ++ id page from rfl, foldl_acc_append,
        List.nil_append]

/-- C7 witness: the spec's concrete instance — keys `a.txt`, `b.json`,
`c.TXT` filtered by `[".txt"]` give exactly `a.txt` and `c.TXT`. -/
theorem C7_listing_extension_filter_witness :
    ([".txt".toList] : List (List Char)) ≠ [] ∧
    list_files_with_ext [["a.txt".toList, "b.json".toList, "c.TXT".toList]]
        (some [".txt".toList]) =
      ([["a.txt".toList, "b.json".toList, "c.TXT".toList]].flatMap id).filter
        fun k => [".txt".toList].any fun ext => keyExtMatch k ext :=
  ⟨by decide,
   (C7_listing_extension_filter _ _).1 [".txt".toList] rfl (by decide)⟩

/-! ## Whitespace toolkit

Support lemmas about `takeWhile`/`dropWhile`, the right-hand variants
`rdropWhile`/`rtakeWhile`, and `pyStrip`, used by the normalizer claims. -/

/-- `pyStrip` is "drop the whitespace run on the left, then the one on the
right". -/
theorem pyStrip_eq (l : List Char) :
    pyStrip l = (l.dropWhile isPySpace).rdropWhile isPySpace := rfl

/-- `takeWhile` of an append ignores the second part as soon as the first
contains a failing element. -/
theorem takeWhile_append_of_ex {α : Type} {p : α → Bool} {A : List α}
    (h : ∃ a ∈ A, p a = false) (B : List α) :
    (A ++ B).takeWhile p = A.takeWhile p := by
  induction A with
  | nil => simp at h
  | cons a A ih =>
      by_cases hp : p a
      · obtain ⟨x, hx, hpx⟩ := h
        rcases List.mem_cons.mp hx with rfl | hx
        · rw [hp] at hpx; cases hpx
        · simp [List.takeWhile_cons, hp, ih ⟨x, hx, hpx⟩]
      · simp [List.takeWhile_cons, hp]

/-- `takeWhile` of an append walks through an all-satisfying first part. -/
theorem takeWhile_append_of_all {α : Type} {p : α → Bool} {A : List α}
    (h : ∀ a ∈ A, p a = true) (B : List α) :
    (A ++ B).takeWhile p = A ++ B.takeWhile p := by
  induction A with
  | nil => simp
  | cons a A ih =>
      have ha : p a = true := h a (List.mem_cons_self a A)
      simp [List.takeWhile_cons, ha,
        ih fun x hx => h x (List.mem_cons_of_mem _ hx)]

/-- `rtakeWhile` of an append ignores the first part as soon as the second
contains a failing element. -/
theorem rtakeWhile_append_of_ex {α : Type} {p : α → Bool} {B : List α}
    (h : ∃ b ∈ B, p b = false) (A : List α) :
    (A ++ B).rtakeWhile p = B.rtakeWhile p := by
  obtain ⟨x, hx, hpx⟩ := h
  simp only [List.rtakeWhile, List.reverse_append]
  rw [takeWhile_append_of_ex ⟨x, List.mem_reverse.mpr hx, hpx⟩]

/-- `rtakeWhile` of an append walks through an all-satisfying second part. -/
theorem rtakeWhile_append_of_all {α : Type} {p : α → Bool} {B : List α}
    (h : ∀ b ∈ B, p b = true) (A : List α) :
    (A ++ B).rtakeWhile p = A.rtakeWhile p ++ B := by
  simp only [List.rtakeWhile, List.reverse_append]
  rw [takeWhile_append_of_all (fun b hb => h b (List.mem_reverse.mp hb)),
    List.reverse_append, List.reverse_reverse]

/-- A list splits as its right-stripped part followed by its trailing
run. -/
theorem rdropWhile_append_rtakeWhile {α : Type} (p : α → Bool) (l : List α) :
    l.rdropWhile p ++ l.rtakeWhile p = l := by
  simp only [List.rdropWhile, List.rtakeWhile]
  rw [← List.reverse_append, List.takeWhile_append_dropWhile,
    List.reverse_reverse]

/-- The first element surviving `dropWhile` fails the predicate. -/
theorem dropWhile_eq_cons_not {α : Type} {p : α → Bool} {l : List α} {c : α}
    {X : List α} (h : l.dropWhile p = c :: X) : p c = false := by
  induction l with
  | nil => simp at h
  | cons a l ih =>
      by_cases hp : p a
      · rw [List.dropWhile_cons, if_pos hp] at h
        exact ih h
      · rw [List.dropWhile_cons, if_neg hp] at h
        cases h
        simpa using hp

/-- Stripping both ends is idempotent. -/
theorem pyStrip_idem (l : List Char) : pyStrip (pyStrip l) = pyStrip l := by
  rw [pyStrip_eq, pyStrip_eq]
  have h1 : (((l.dropWhile isPySpace).rdropWhile isPySpace).dropWhile
      isPySpace) = (l.dropWhile isPySpace).rdropWhile isPySpace := by
    cases hru : (l.dropWhile isPySpace).rdropWhile isPySpace with
    | nil => rfl
    | cons c t =>
        have hpre := List.rdropWhile_prefix isPySpace (l.dropWhile isPySpace)
        rw [hru] at hpre
        obtain ⟨r, hr⟩ := hpre
        have hcons : l.dropWhile isPySpace = c :: (t ++ r) := by
          rw [← hr]
          rfl
        have hc : isPySpace c = false := dropWhile_eq_cons_not hcons
        rw [List.dropWhile_cons, if_neg (by simp [hc])]
  rw [h1, List.rdropWhile_idempotent]

/-- A chain restricts to any contiguous piece. -/
theorem chain_sub {R : Char → Char → Prop} {l₁ l₂ : List Char}
    (h : List.Chain' R l₂) (hsub : l₁ <:+: l₂) : List.Chain' R l₁ :=
  List.Chain'.infix h hsub

/-- The stripped list sits inside the original list. -/
theorem pyStrip_inside (l : List Char) : pyStrip l <:+: l := by
  rw [pyStrip_eq]
  obtain ⟨r, hr⟩ := List.rdropWhile_prefix isPySpace (l.dropWhile isPySpace)
  obtain ⟨s, hs⟩ := List.dropWhile_suffix (l := l) isPySpace
  refine ⟨s, r, ?_⟩
  rw [List.append_assoc, hr, hs]

/-- A list of whitespace strips to nothing. -/
theorem pyStrip_of_all (l : List Char) (h : ∀ c ∈ l, isPySpace c = true) :
    pyStrip l = [] := by
  rw [pyStrip_eq, List.dropWhile_eq_nil_iff.mpr h, List.rdropWhile_nil]

/-- Newline bookkeeping for the strip: on a list with at least one
non-whitespace character, the newlines split into the leading run, the
trailing run and the stripped middle. -/
theorem count_pyStrip_split (w : List Char)
    (h : ¬ ∀ c ∈ w, isPySpace c = true) :
    w.count '\n' = (w.takeWhile isPySpace).count '\n' +
      (w.rtakeWhile isPySpace).count '\n' + (pyStrip w).count '\n' := by
  have hsplit1 : (w.takeWhile isPySpace).count '\n' +
      (w.dropWhile isPySpace).count '\n' = w.count '\n' := by
    rw [← List.count_append, List.takeWhile_append_dropWhile]
  have hex : ∃ c ∈ w.dropWhile isPySpace, isPySpace c = false := by
    push_neg at h
    obtain ⟨c, hc, hpc⟩ := h
    rw [← List.takeWhile_append_dropWhile (p := isPySpace) (l := w),
      List.mem_append] at hc
    rcases hc with hc | hc
    · exact absurd (List.mem_takeWhile_imp hc) (by simpa using hpc)
    · exact ⟨c, hc, by simpa using hpc⟩
  have hsplit2 : (pyStrip w).count '\n' +
      ((w.dropWhile isPySpace).rtakeWhile isPySpace).count '\n' =
      (w.dropWhile isPySpace).count '\n' := by
    rw [pyStrip_eq, ← List.count_append, rdropWhile_append_rtakeWhile]
  have htr : (w.dropWhile isPySpace).rtakeWhile isPySpace =
      w.rtakeWhile isPySpace := by
    conv_rhs =>
      rw [← List.takeWhile_append_dropWhile (p := isPySpace) (l := w)]
    rw [rtakeWhile_append_of_ex hex]
  rw [htr] at hsplit2
  omega

/-! ## Invariance lemmas for the collapse passes -/

/-- A collapse pass on a non-satisfying head just keeps it. -/
theorem runCollapseAux_cons_neg {p : Char → Bool} {c : Char}
    (h : p c = false) (b : Bool) (t : List Char) :
    runCollapseAux p b (c :: t) = c :: runCollapseAux p false t := by
  simp [runCollapseAux, h]

/-- Characters surviving a collapse pass are the emitted spaces and the
original non-run characters. -/
theorem mem_runCollapseAux {p : Char → Bool} {c : Char} :
    ∀ {w : List Char} {b : Bool}, c ∈ runCollapseAux p b w →
      c = ' ' ∨ (c ∈ w ∧ p c = false) := by
  intro w
  induction w with
  | nil => intro b h; simp [runCollapseAux] at h
  | cons a w ih =>
      intro b h
      by_cases hp : p a
      · rcases b with _ | _
        · rw [runCollapseAux, if_pos hp] at h
          simp only [Bool.false_eq_true, if_false, List.mem_cons] at h
          rcases h with rfl | h
          · exact Or.inl rfl
          · rcases ih h with h | ⟨h1, h2⟩
            · exact Or.inl h
            · exact Or.inr ⟨List.mem_cons_of_mem _ h1, h2⟩
        · rw [runCollapseAux, if_pos hp, if_pos rfl] at h
          rcases ih h with h | ⟨h1, h2⟩
          · exact Or.inl h
          · exact Or.inr ⟨List.mem_cons_of_mem _ h1, h2⟩
      · rw [runCollapseAux, if_neg hp] at h
        rcases List.mem_cons.mp h with rfl | h
        · exact Or.inr ⟨List.mem_cons_self _ _, by simpa using hp⟩
        · rcases ih h with h | ⟨h1, h2⟩
          · exact Or.inl h
          · exact Or.inr ⟨List.mem_cons_of_mem _ h1, h2⟩

/-- A collapse pass whose run class contains no newline preserves the
newline count. -/
theorem count_runCollapseAux {p : Char → Bool}
    (hp : ∀ c, p c = true → c ≠ '\n') :
    ∀ (w : List Char) (b : Bool),
      (runCollapseAux p b w).count '\n' = w.count '\n' := by
  intro w
  induction w with
  | nil => intro b; rfl
  | cons a w ih =>
      intro b
      by_cases hpa : p a
      · have ha : a ≠ '\n' := hp a hpa
        rcases b with _ | _
        · rw [runCollapseAux, if_pos hpa]
          simp only [Bool.false_eq_true, if_false]
          rw [List.count_cons, List.count_cons, ih]
          simp [ha, (by decide : (' ' : Char) ≠ '\n')]
        · rw [runCollapseAux, if_pos hpa, if_pos rfl, ih, List.count_cons]
          simp [ha]
      · rw [runCollapseAux, if_neg hpa, List.count_cons, List.count_cons, ih]

/-- A whitespace-only collapse pass leaves the newline count of the leading
whitespace run unchanged. -/
theorem count_takeWhile_runCollapseAux {p : Char → Bool}
    (hp1 : ∀ c, p c = true → isPySpace c = true)
    (hp2 : ∀ c, p c = true → c ≠ '\n') :
    ∀ (w : List Char) (b : Bool),
      ((runCollapseAux p b w).takeWhile isPySpace).count '\n' =
        (w.takeWhile isPySpace).count '\n' := by
  intro w
  induction w with
  | nil => intro b; rfl
  | cons a w ih =>
      intro b
      by_cases hpa : p a
      · have hws : isPySpace a = true := hp1 a hpa
        have ha : a ≠ '\n' := hp2 a hpa
        rcases b with _ | _
        · rw [runCollapseAux, if_pos hpa]
          simp only [Bool.false_eq_true, if_false]
          rw [List.takeWhile_cons, if_pos (by decide : isPySpace ' ' = true),
            List.takeWhile_cons, if_pos hws, List.count_cons, List.count_cons,
            ih]
          simp [ha, (by decide : (' ' : Char) ≠ '\n')]
        · rw [runCollapseAux, if_pos hpa, if_pos rfl, ih,
            List.takeWhile_cons, if_pos hws, List.count_cons]
          simp [ha]
      · by_cases hws : isPySpace a
        · rw [runCollapseAux, if_neg hpa, List.takeWhile_cons, if_pos hws,
            List.takeWhile_cons, if_pos hws, List.count_cons, List.count_cons,
            ih]
        · rw [runCollapseAux, if_neg hpa, List.takeWhile_cons,
            if_neg (by simp [hws]), List.takeWhile_cons,
            if_neg (by simp [hws])]

/-- A collapse pass does not change whether the list is whitespace-only. -/
theorem all_ws_runCollapseAux {p : Char → Bool}
    (hp1 : ∀ c, p c = true → isPySpace c = true) :
    ∀ (w : List Char) (b : Bool),
      (runCollapseAux p b w).all isPySpace = w.all isPySpace := by
  intro w
  induction w with
  | nil => intro b; rfl
  | cons a w ih =>
      intro b
      by_cases hpa : p a
      · have hws := hp1 a hpa
        rcases b with _ | _
        · rw [runCollapseAux, if_pos hpa]
          simp only [Bool.false_eq_true, if_false]
          simp [List.all_cons, ih true, hws, (by decide : isPySpace ' ' = true)]
        · rw [runCollapseAux, if_pos hpa, if_pos rfl]
          simp [List.all_cons, ih true, hws]
      · rw [runCollapseAux, if_neg hpa]
        simp [List.all_cons, ih false]

/-- Prepending to a list that still contains a non-whitespace character does
not change the trailing whitespace run. -/
theorem rtakeWhile_cons_of_ex {u : List Char}
    (h : ∃ a ∈ u, isPySpace a = false) (c : Char) :
    (c :: u).rtakeWhile isPySpace = u.rtakeWhile isPySpace := by
  have h1 : c :: u = [c] ++ u := rfl
  rw [h1, rtakeWhile_append_of_ex h]

/-- The trailing whitespace run of an all-whitespace list is the list. -/
theorem rtakeWhile_of_all {u : List Char}
    (h : ∀ a ∈ u, isPySpace a = true) :
    u.rtakeWhile isPySpace = u :=
  List.rtakeWhile_eq_self_iff.mpr h

/-- A single non-whitespace character has no trailing whitespace run. -/
theorem rtakeWhile_single_neg {a : Char} (h : isPySpace a = false) :
    ([a] : List Char).rtakeWhile isPySpace = [] := by
  have h1 : ([a] : List Char) = [] ++ [a] := rfl
  rw [h1, List.rtakeWhile_concat, if_neg (by simp [h])]

/-- A non-whitespace head before an all-whitespace tail bounds the trailing
run to exactly that tail. -/
theorem rtakeWhile_cons_of_all_neg {u : List Char}
    (hall : ∀ x ∈ u, isPySpace x = true) {a : Char}
    (ha : isPySpace a = false) :
    (a :: u).rtakeWhile isPySpace = u := by
  have h1 : a :: u = [a] ++ u := rfl
  rw [h1, rtakeWhile_append_of_all hall, rtakeWhile_single_neg ha,
    List.nil_append]

/-- Whitespace-only transfer across a collapse pass, membership form. -/
theorem allWs_runCollapseAux_iff {p : Char → Bool}
    (hp1 : ∀ c, p c = true → isPySpace c = true) (w : List Char) (b : Bool) :
    (∀ c ∈ runCollapseAux p b w, isPySpace c = true) ↔
      (∀ c ∈ w, isPySpace c = true) := by
  have h := all_ws_runCollapseAux hp1 w b
  constructor
  · intro hh c hc
    have h2 : w.all isPySpace = true := by
      rw [← h, List.all_eq_true]
      exact hh
    exact List.all_eq_true.mp h2 c hc
  · intro hh c hc
    have h2 : (runCollapseAux p b w).all isPySpace = true := by
      rw [h, List.all_eq_true]
      exact hh
    exact List.all_eq_true.mp h2 c hc

/-- A whitespace-only collapse pass leaves the newline count of the trailing
whitespace run unchanged. -/
theorem count_rtakeWhile_runCollapseAux {p : Char → Bool}
    (hp1 : ∀ c, p c = true → isPySpace c = true)
    (hp2 : ∀ c, p c = true → c ≠ '\n') :
    ∀ (w : List Char) (b : Bool),
      ((runCollapseAux p b w).rtakeWhile isPySpace).count '\n' =
        (w.rtakeWhile isPySpace).count '\n' := by
  intro w
  induction w with
  | nil => intro b; rfl
  | cons a w ih =>
      intro b
      by_cases hall : ∀ x ∈ w, isPySpace x = true
      · -- the tail is all whitespace, and so is its collapse
        have hallc : ∀ x ∈ runCollapseAux p true w, isPySpace x = true :=
          (allWs_runCollapseAux_iff hp1 w true).mpr hall
        have hallc0 : ∀ x ∈ runCollapseAux p false w, isPySpace x = true :=
          (allWs_runCollapseAux_iff hp1 w false).mpr hall
        have hcw : (runCollapseAux p true w).count '\n' = w.count '\n' :=
          count_runCollapseAux hp2 w true
        have hcw0 : (runCollapseAux p false w).count '\n' = w.count '\n' :=
          count_runCollapseAux hp2 w false
        by_cases hpa : p a
        · have hwa : isPySpace a = true := hp1 a hpa
          have hna : a ≠ '\n' := hp2 a hpa
          have hrhs : ((a :: w).rtakeWhile isPySpace).count '\n' =
              w.count '\n' := by
            rw [rtakeWhile_of_all (by
              intro x hx
              rcases List.mem_cons.mp hx with rfl | hx
              · exact hwa
              · exact hall x hx)]
            simp [List.count_cons, hna]
          rcases b with _ | _
          · rw [runCollapseAux, if_pos hpa]
            simp only [Bool.false_eq_true, if_false]
            rw [rtakeWhile_of_all (by
              intro x hx
              rcases List.mem_cons.mp hx with rfl | hx
              · decide
              · exact hallc x hx)]
            rw [List.count_cons, hcw, hrhs]
            simp
          · rw [runCollapseAux, if_pos hpa, if_pos rfl, hrhs,
              rtakeWhile_of_all hallc, hcw]
        · rw [runCollapseAux, if_neg hpa]
          by_cases hwa : isPySpace a
          · rw [rtakeWhile_of_all (by
              intro x hx
              rcases List.mem_cons.mp hx with rfl | hx
              · exact hwa
              · exact hallc0 x hx)]
            rw [rtakeWhile_of_all (by
              intro x hx
              rcases List.mem_cons.mp hx with rfl | hx
              · exact hwa
              · exact hall x hx)]
            rw [List.count_cons, List.count_cons, hcw0]
          · have hwa' : isPySpace a = false := by simpa using hwa
            rw [rtakeWhile_cons_of_all_neg hallc0 hwa',
              rtakeWhile_cons_of_all_neg hall hwa', hcw0]
      · -- the tail keeps a non-whitespace witness on both sides
        have hex : ∃ x ∈ w, isPySpace x = false := by
          push_neg at hall
          obtain ⟨x, hx, hpx⟩ := hall
          exact ⟨x, hx, by simpa using hpx⟩
        have hexc : ∃ x ∈ runCollapseAux p true w, isPySpace x = false := by
          by_contra hcon
          push_neg at hcon
          apply hall
          apply (allWs_runCollapseAux_iff hp1 w true).mp
          intro c hc
          have := hcon c hc
          simpa using this
        have hexc0 : ∃ x ∈ runCollapseAux p false w, isPySpace x = false := by
          by_contra hcon
          push_neg at hcon
          apply hall
          apply (allWs_runCollapseAux_iff hp1 w false).mp
          intro c hc
          have := hcon c hc
          simpa using this
        by_cases hpa : p a
        · rcases b with _ | _
          · rw [runCollapseAux, if_pos hpa]
            simp only [Bool.false_eq_true, if_false]
            rw [rtakeWhile_cons_of_ex hexc, rtakeWhile_cons_of_ex hex, ih true]
          · rw [runCollapseAux, if_pos hpa, if_pos rfl,
              rtakeWhile_cons_of_ex hex, ih true]
        · rw [runCollapseAux, if_neg hpa, rtakeWhile_cons_of_ex hexc0,
            rtakeWhile_cons_of_ex hex, ih false]

/-- A whitespace-only, newline-free collapse pass leaves the newline count
of the stripped result unchanged. -/
theorem count_pyStrip_runCollapseAux {p : Char → Bool}
    (hp1 : ∀ c, p c = true → isPySpace c = true)
    (hp2 : ∀ c, p c = true → c ≠ '\n') (w : List Char) (b : Bool) :
    (pyStrip (runCollapseAux p b w)).count '\n' = (pyStrip w).count '\n' := by
  by_cases hall : ∀ c ∈ w, isPySpace c = true
  · rw [pyStrip_of_all _ hall,
      pyStrip_of_all _ ((allWs_runCollapseAux_iff hp1 w b).mpr hall)]
  · have h2 : ¬ ∀ c ∈ runCollapseAux p b w, isPySpace c = true := fun hcon =>
      hall ((allWs_runCollapseAux_iff hp1 w b).mp hcon)
    have m1 := count_pyStrip_split w hall
    have m2 := count_pyStrip_split _ h2
    rw [count_runCollapseAux hp2, count_takeWhile_runCollapseAux hp1 hp2,
      count_rtakeWhile_runCollapseAux hp1 hp2] at m2
    omega

/-! ## The placeholder round trip -/

/-- Boolean/propositional bridge for `isPrefixOf`. -/
theorem isPrefixOf_eq_true_iff {l₁ l₂ : List Char} :
    l₁.isPrefixOf l₂ = true ↔ l₁ <+: l₂ :=
  List.isPrefixOf_iff_prefix

/-- The fuel argument of `unmarkGo` is irrelevant past the length. -/
theorem unmarkGo_congr : ∀ (n m : Nat) (l : List Char),
    l.length ≤ n → l.length ≤ m → unmarkGo n l = unmarkGo m l := by
  intro n
  induction n with
  | zero =>
      intro m l hn hm
      have hl : l = [] := by
        cases l with
        | nil => rfl
        | cons c rest => simp at hn
      subst hl
      cases m <;> rfl
  | succ n ih =>
      intro m l hn hm
      cases l with
      | nil => cases m <;> rfl
      | cons c rest =>
          cases m with
          | zero => simp at hm
          | succ m =>
              rw [unmarkGo, unmarkGo]
              by_cases hp : marker.isPrefixOf (c :: rest)
              · rw [if_pos hp, if_pos hp]
                have h8 : (rest.drop 8).length ≤ n := by
                  simp at hn ⊢
                  omega
                have h8' : (rest.drop 8).length ≤ m := by
                  simp at hm ⊢
                  omega
                rw [ih _ _ h8 h8']
              · rw [if_neg hp, if_neg hp]
                have h1 : rest.length ≤ n := by
                  simp at hn
                  omega
                have h1' : rest.length ≤ m := by
                  simp at hm
                  omega
                rw [ih _ _ h1 h1']

/-- `unmark` consumes a leading placeholder into one newline. -/
theorem unmark_append_marker (t : List Char) :
    unmark (marker ++ t) = '\n' :: unmark t := by
  have h1 : marker ++ t = '<' :: (['N', 'E', 'W', 'L', 'I', 'N', 'E', '>'] ++ t) := rfl
  have hp : marker.isPrefixOf (marker ++ t) = true := by
    rw [isPrefixOf_eq_true_iff]
    exact ⟨t, rfl⟩
  rw [unmark, h1, List.length_cons, unmarkGo, if_pos (h1 ▸ hp)]
  have hdrop : ((['N', 'E', 'W', 'L', 'I', 'N', 'E', '>'] : List Char) ++ t).drop 8 = t := by
    have : (8 : Nat) = (['N', 'E', 'W', 'L', 'I', 'N', 'E', '>'] : List Char).length := rfl
    rw [this, List.drop_left]
  rw [hdrop, unmark]
  congr 1
  apply unmarkGo_congr
  · simp only [List.length_append, List.length_cons]
    omega
  · exact le_rfl

/-- `unmark` keeps a character that does not start a placeholder. -/
theorem unmark_cons_of_ne {c : Char} {t : List Char}
    (h : ¬ marker <+: (c :: t)) : unmark (c :: t) = c :: unmark t := by
  rw [unmark, List.length_cons, unmarkGo,
    if_neg (by rw [isPrefixOf_eq_true_iff]; exact h), unmark]

/-! ## `mapTab` invariance -/

/-- Replacing tabs with spaces does not change whitespace-ness. -/
theorem ws_mapTab_char (c : Char) :
    isPySpace (if c = '\t' then ' ' else c) = isPySpace c := by
  by_cases h : c = '\t'
  · subst h
    decide
  · simp [h]

/-- Replacing tabs with spaces preserves the newline count. -/
theorem count_mapTab (l : List Char) :
    (mapTab l).count '\n' = l.count '\n' := by
  induction l with
  | nil => rfl
  | cons a l ih =>
      have hg : ((if a = '\t' then ' ' else a) == '\n') = (a == '\n') := by
        by_cases h : a = '\t'
        · subst h
          decide
        · simp [h]
      simp only [mapTab] at ih ⊢
      rw [List.map_cons, List.count_cons, List.count_cons, ih, hg]

/-- Replacing tabs with spaces commutes with taking the leading whitespace
run. -/
theorem takeWhile_ws_mapTab (l : List Char) :
    (mapTab l).takeWhile isPySpace = mapTab (l.takeWhile isPySpace) := by
  have hfn : (isPySpace ∘ fun c => if c = '\t' then ' ' else c) = isPySpace := by
    funext c
    exact ws_mapTab_char c
  simp only [mapTab, List.takeWhile_map, hfn]

/-- Replacing tabs with spaces commutes with taking the trailing whitespace
run. -/
theorem rtakeWhile_ws_mapTab (l : List Char) :
    (mapTab l).rtakeWhile isPySpace = mapTab (l.rtakeWhile isPySpace) := by
  have hfn : (isPySpace ∘ fun c => if c = '\t' then ' ' else c) = isPySpace := by
    funext c
    exact ws_mapTab_char c
  simp only [List.rtakeWhile, mapTab, ← List.map_reverse, List.takeWhile_map,
    hfn]

/-- Replacing tabs with spaces does not change whether the list is
whitespace-only. -/
theorem allWs_mapTab_iff (l : List Char) :
    (∀ c ∈ mapTab l, isPySpace c = true) ↔ (∀ c ∈ l, isPySpace c = true) := by
  constructor
  · intro h c hc
    have h1 := h _ (List.mem_map_of_mem (fun c => if c = '\t' then ' ' else c) hc)
    rwa [ws_mapTab_char] at h1
  · intro h c hc
    obtain ⟨a, ha, rfl⟩ := List.mem_map.mp hc
    rw [ws_mapTab_char]
    exact h a ha

/-- Replacing tabs with spaces leaves the newline count of the stripped
result unchanged. -/
theorem count_pyStrip_mapTab (l : List Char) :
    (pyStrip (mapTab l)).count '\n' = (pyStrip l).count '\n' := by
  by_cases hall : ∀ c ∈ l, isPySpace c = true
  · rw [pyStrip_of_all _ hall, pyStrip_of_all _ ((allWs_mapTab_iff l).mpr hall)]
  · have h2 : ¬ ∀ c ∈ mapTab l, isPySpace c = true := fun hcon =>
      hall ((allWs_mapTab_iff l).mp hcon)
    have m1 := count_pyStrip_split l hall
    have m2 := count_pyStrip_split _ h2
    rw [count_mapTab, takeWhile_ws_mapTab, count_mapTab, rtakeWhile_ws_mapTab,
      count_mapTab] at m2
    omega

/-! ## Marker combinatorics -/

/-- Collapse step lemma: a satisfied head outside a run emits one space. -/
theorem runCollapseAux_cons_pos_false {p : Char → Bool} {c : Char}
    (h : p c = true) (t : List Char) :
    runCollapseAux p false (c :: t) = ' ' :: runCollapseAux p true t := by
  simp [runCollapseAux, h]

/-- Collapse step lemma: a satisfied head inside a run is dropped. -/
theorem runCollapseAux_cons_pos_true {p : Char → Bool} {c : Char}
    (h : p c = true) (t : List Char) :
    runCollapseAux p true (c :: t) = runCollapseAux p true t := by
  simp [runCollapseAux, h]

/-- A block of non-collapsible characters passes through a collapse pass
unchanged and resets the run flag. -/
theorem runCollapseAux_append_of_neg {p : Char → Bool} :
    ∀ (A : List Char) (c0 : Char), (∀ c ∈ c0 :: A, p c = false) →
      ∀ (b : Bool) (t : List Char),
        runCollapseAux p b ((c0 :: A) ++ t) =
          (c0 :: A) ++ runCollapseAux p false t := by
  intro A
  induction A with
  | nil =>
      intro c0 h b t
      rw [List.cons_append,
        runCollapseAux_cons_neg (h c0 (List.mem_cons_self _ _)) b]
      rfl
  | cons a A ih =>
      intro c0 h b t
      simp only [List.cons_append]
      rw [runCollapseAux_cons_neg (h c0 (List.mem_cons_self _ _)) b]
      have h2 := ih a (fun c hc => h c (List.mem_cons_of_mem _ hc)) false t
      simp only [List.cons_append] at h2
      rw [h2]

/-- The placeholder is whitespace-free, so a whitespace collapse pass moves
across it unchanged. -/
theorem collapse_marker (b : Bool) (t : List Char) :
    runCollapseAux isPySpace b (marker ++ t) =
      marker ++ runCollapseAux isPySpace false t := by
  have hm : marker = '<' :: ['N', 'E', 'W', 'L', 'I', 'N', 'E', '>'] := rfl
  rw [hm]
  exact runCollapseAux_append_of_neg _ '<' (by decide) b t

/-- A list starting with the placeholder starts with `<`. -/
theorem marker_head {c : Char} {t : List Char} (h : marker <+: c :: t) :
    c = '<' := by
  have hm : marker = '<' :: ['N', 'E', 'W', 'L', 'I', 'N', 'E', '>'] := rfl
  rw [hm] at h
  exact (List.cons_prefix_cons.mp h).1.symm

/-- The placeholder tail behind a `<` head. -/
theorem marker_tail {t : List Char} (h : marker <+: '<' :: t) :
    ['N', 'E', 'W', 'L', 'I', 'N', 'E', '>'] <+: t := by
  have hm : marker = '<' :: ['N', 'E', 'W', 'L', 'I', 'N', 'E', '>'] := rfl
  rw [hm] at h
  exact (List.cons_prefix_cons.mp h).2

/-- A newline-free, `<`-free pattern that starts the marked string already
starts the original string: `mark` only inserts blocks beginning with `<`
in place of newlines. -/
theorem pre_of_mark : ∀ (w q : List Char), q ≠ [] →
    (∀ c ∈ q, c ≠ '\n' ∧ c ≠ '<') → q <+: mark w → q <+: w := by
  intro w
  induction w with
  | nil =>
      intro q hq1 hq2 hp
      rw [show mark [] = [] from rfl] at hp
      exact absurd (List.prefix_nil.mp hp) hq1
  | cons d w ih =>
      intro q hq1 hq2 hp
      by_cases hd : d = '\n'
      · subst hd
        have hm : mark ('\n' :: w) =
            '<' :: (['N', 'E', 'W', 'L', 'I', 'N', 'E', '>'] ++ mark w) := by
          simp [mark, marker]
        rw [hm] at hp
        cases q with
        | nil => exact absurd rfl hq1
        | cons qh qt =>
            have h1 := (List.cons_prefix_cons.mp hp).1
            exact absurd h1 (hq2 qh (List.mem_cons_self _ _)).2
      · have hm : mark (d :: w) = d :: mark w := by
          simp [mark, hd]
        rw [hm] at hp
        cases q with
        | nil => exact absurd rfl hq1
        | cons qh qt =>
            obtain ⟨h1, h2⟩ := List.cons_prefix_cons.mp hp
            subst h1
            cases qt with
            | nil => exact List.cons_prefix_cons.mpr ⟨rfl, List.nil_prefix⟩
            | cons x xs =>
                exact List.cons_prefix_cons.mpr ⟨rfl,
                  ih _ (by simp) (fun c hc => hq2 c (List.mem_cons_of_mem _ hc)) h2⟩

/-- Same transfer across the whitespace collapse of a marked string, for a
whitespace-free, `<`-free pattern. -/
theorem pre_of_collapse_mark : ∀ (w q : List Char), q ≠ [] →
    (∀ c ∈ q, isPySpace c = false ∧ c ≠ '<') →
    q <+: runCollapseAux isPySpace false (mark w) → q <+: w := by
  intro w
  induction w with
  | nil =>
      intro q hq1 hq2 hp
      rw [show runCollapseAux isPySpace false (mark []) = [] from rfl] at hp
      exact absurd (List.prefix_nil.mp hp) hq1
  | cons d w ih =>
      intro q hq1 hq2 hp
      by_cases hd : d = '\n'
      · subst hd
        rw [show mark ('\n' :: w) = marker ++ mark w from by simp [mark],
          collapse_marker] at hp
        cases q with
        | nil => exact absurd rfl hq1
        | cons qh qt =>
            have hm : marker ++ runCollapseAux isPySpace false (mark w) =
                '<' :: (['N', 'E', 'W', 'L', 'I', 'N', 'E', '>'] ++
                  runCollapseAux isPySpace false (mark w)) := rfl
            rw [hm] at hp
            have h1 := (List.cons_prefix_cons.mp hp).1
            exact absurd h1 (hq2 qh (List.mem_cons_self _ _)).2
      · rw [show mark (d :: w) = d :: mark w from by simp [mark, hd]] at hp
        by_cases hws : isPySpace d
        · rw [runCollapseAux_cons_pos_false hws] at hp
          cases q with
          | nil => exact absurd rfl hq1
          | cons qh qt =>
              have h1 := (List.cons_prefix_cons.mp hp).1
              have h2 := (hq2 qh (List.mem_cons_self _ _)).1
              rw [h1] at h2
              exact absurd h2 (by decide)
        · rw [runCollapseAux_cons_neg (by simpa using hws) false] at hp
          cases q with
          | nil => exact absurd rfl hq1
          | cons qh qt =>
              obtain ⟨h1, h2⟩ := List.cons_prefix_cons.mp hp
              subst h1
              cases qt with
              | nil => exact List.cons_prefix_cons.mpr ⟨rfl, List.nil_prefix⟩
              | cons x xs =>
                  exact List.cons_prefix_cons.mpr ⟨rfl,
                    ih _ (by simp) (fun c hc => hq2 c (List.mem_cons_of_mem _ hc)) h2⟩

/-- A space-free pattern prefixing the tab-to-space image already prefixes
the original. -/
theorem pre_of_mapTab : ∀ (w q : List Char), ' ' ∉ q →
    q <+: mapTab w → q <+: w := by
  intro w
  induction w with
  | nil =>
      intro q h hp
      exact hp
  | cons d w ih =>
      intro q h hp
      cases q with
      | nil => exact List.nil_prefix
      | cons qh qt =>
          rw [show mapTab (d :: w) =
            (if d = '\t' then ' ' else d) :: mapTab w from rfl] at hp
          obtain ⟨h1, h2⟩ := List.cons_prefix_cons.mp hp
          by_cases ht : d = '\t'
          · subst ht
            rw [if_pos rfl] at h1
            exact absurd (h1 ▸ List.mem_cons_self qh qt) h
          · rw [if_neg ht] at h1
            subst h1
            exact List.cons_prefix_cons.mpr ⟨rfl,
              ih qt (fun hsp => h (List.mem_cons_of_mem _ hsp)) h2⟩

/-- Replacing tabs with spaces cannot create a placeholder occurrence. -/
theorem infix_marker_mapTab : ∀ w : List Char,
    marker <:+: mapTab w → marker <:+: w := by
  intro w
  induction w with
  | nil =>
      intro h
      exact h
  | cons d w ih =>
      intro h
      rw [show mapTab (d :: w) =
        (if d = '\t' then ' ' else d) :: mapTab w from rfl] at h
      rcases List.infix_cons_iff.mp h with h | h
      · have hpre := pre_of_mapTab (d :: w) marker (by decide)
          (by rw [show mapTab (d :: w) =
            (if d = '\t' then ' ' else d) :: mapTab w from rfl]; exact h)
        exact hpre.isInfix
      · exact List.infix_cons (ih h)

/-- On a placeholder-free string, the `mark` / collapse / `unmark` round
trip of `clean_prompt` is exactly the collapse of non-newline whitespace
runs: the placeholder protects every newline individually. -/
theorem unmark_collapse_mark : ∀ (w : List Char), ¬ marker <:+: w →
    ∀ b, unmark (runCollapseAux isPySpace b (mark w)) =
      runCollapseAux (fun c => isPySpace c && !(c = '\n')) b w := by
  intro w
  induction w with
  | nil =>
      intro hf b
      rfl
  | cons d w ih =>
      intro hf b
      have hfw : ¬ marker <:+: w := fun h => hf (List.infix_cons h)
      by_cases hd : d = '\n'
      · subst hd
        rw [show mark ('\n' :: w) = marker ++ mark w from by simp [mark],
          collapse_marker, unmark_append_marker, ih hfw false,
          runCollapseAux_cons_neg (by decide) b]
      · rw [show mark (d :: w) = d :: mark w from by simp [mark, hd]]
        by_cases hws : isPySpace d
        · have hpNN : (isPySpace d && !(d = '\n')) = true := by
            simp [hws, hd]
          rcases b with _ | _
          · rw [runCollapseAux_cons_pos_false hws]
            have hne : ¬ marker <+:
                (' ' :: runCollapseAux isPySpace true (mark w)) := fun hcon =>
              absurd (marker_head hcon) (by decide)
            rw [unmark_cons_of_ne hne, ih hfw true,
              runCollapseAux_cons_pos_false hpNN]
          · rw [runCollapseAux_cons_pos_true hws, ih hfw true,
              runCollapseAux_cons_pos_true hpNN]
        · have hpNN : (isPySpace d && !(d = '\n')) = false := by
            simp [hws]
          rw [runCollapseAux_cons_neg (by simpa using hws) b]
          have hne : ¬ marker <+:
              (d :: runCollapseAux isPySpace false (mark w)) := by
            intro hcon
            have hdh : d = '<' := marker_head hcon
            subst hdh
            have htail := marker_tail hcon
            have hq := pre_of_collapse_mark w _ (by simp) (by decide) htail
            apply hf
            have hpre : marker <+: '<' :: w :=
              List.cons_prefix_cons.mpr ⟨rfl, hq⟩
            exact hpre.isInfix
          rw [unmark_cons_of_ne hne, ih hfw false,
            runCollapseAux_cons_neg hpNN b]

/-- C3 (counterexample): for the input `"\n"`, the normalizer with
`collapse_whitespace` and `preserve_newlines` both true returns a string
with no newline at all (the final `strip()` removes it), while the
reference version — tabs/spaces collapsed, newlines untouched — keeps one
newline.  The claimed count equality fails. -/
theorem C3_counterexample :
    ¬ ((clean_prompt "\n".toList true true true).count '\n' =
        (spec_collapse_tabs_spaces "\n".toList).count '\n') := by
  decide

/-- C3 (amended): provided the backslash-stripped input contains no literal
`<NEWLINE>` placeholder, the newline count of the output equals the newline
count of the *trimmed* reference version: backslashes removed, tab/space
runs collapsed with newlines untouched, and leading/trailing whitespace
stripped as the code's final `strip()` does. -/
theorem C3_newline_count (x : List Char)
    (hf : ¬ marker <:+: stripBS x) :
    (clean_prompt x true true true).count '\n' =
      (pyStrip (spec_collapse_tabs_spaces (stripBS x))).count '\n' := by
  have hpNN1 : ∀ c : Char, (isPySpace c && !(c = '\n')) = true →
      isPySpace c = true := by
    intro c h
    simp only [Bool.and_eq_true] at h
    exact h.1
  have hpNN2 : ∀ c : Char, (isPySpace c && !(c = '\n')) = true →
      c ≠ '\n' := by
    intro c h
    simp only [Bool.and_eq_true] at h
    simpa using h.2
  have hts1 : ∀ c : Char, (c = ' ' || c = '\t' : Bool) = true →
      isPySpace c = true := by
    intro c h
    simp only [Bool.or_eq_true] at h
    rcases h with h | h
    · have : c = ' ' := by simpa using h
      subst this
      decide
    · have : c = '\t' := by simpa using h
      subst this
      decide
  have hts2 : ∀ c : Char, (c = ' ' || c = '\t' : Bool) = true →
      c ≠ '\n' := by
    intro c h
    simp only [Bool.or_eq_true] at h
    rcases h with h | h
    · have : c = ' ' := by simpa using h
      subst this
      decide
    · have : c = '\t' := by simpa using h
      subst this
      decide
  by_cases hx : x = []
  · subst hx
    rfl
  · have hf2 : ¬ marker <:+: mapTab (stripBS x) := fun h =>
      hf (infix_marker_mapTab _ h)
    have hclean : clean_prompt x true true true =
        pyStrip (unmark (collapseWs (mark (mapTab (stripBS x))))) := by
      simp [clean_prompt, hx]
    rw [hclean,
      show collapseWs (mark (mapTab (stripBS x))) =
        runCollapseAux isPySpace false (mark (mapTab (stripBS x))) from rfl,
      unmark_collapse_mark _ hf2 false,
      count_pyStrip_runCollapseAux hpNN1 hpNN2 _ false,
      count_pyStrip_mapTab,
      show spec_collapse_tabs_spaces (stripBS x) =
        runCollapseAux (fun c => c = ' ' || c = '\t') false (stripBS x) from
        rfl,
      count_pyStrip_runCollapseAux hts1 hts2 _ false]

/-- C3 witness: the spec's own example input satisfies the amended count
equality (both sides count the two preserved newlines). -/
theorem C3_newline_count_witness :
    (¬ marker <:+: stripBS "a\\b\t\tc\n\n d".toList) ∧
    (clean_prompt "a\\b\t\tc\n\n d".toList true true true).count '\n' =
      (pyStrip (spec_collapse_tabs_spaces
        (stripBS "a\\b\t\tc\n\n d".toList))).count '\n' :=
  ⟨by decide, C3_newline_count _ (by decide)⟩

/-! ## Normalized-whitespace fixed points -/

/-- A collapse pass is the identity on a list whose `p`-characters are
single spaces with no two adjacent. -/
theorem runCollapse_fixed {p : Char → Bool} :
    ∀ u : List Char, (∀ c ∈ u, p c = true → c = ' ') →
      List.Chain' (noTwo p) u → runCollapseAux p false u = u := by
  intro u
  induction u with
  | nil => intro _ _; rfl
  | cons c u ih =>
      intro hmem hch
      by_cases hp : p c
      · have hc : c = ' ' := hmem c (List.mem_cons_self _ _) hp
        rw [runCollapseAux_cons_pos_false hp]
        cases u with
        | nil => rw [hc]; rfl
        | cons d u' =>
            have hnd : p d = false := by
              have hpair := (List.chain'_cons'.mp hch).1 d (by simp)
              by_contra hcon
              exact hpair ⟨hp, by simpa using hcon⟩
            have htail := ih
              (fun x hx hpx => hmem x (List.mem_cons_of_mem _ hx) hpx)
              (List.chain'_cons'.mp hch).2
            rw [runCollapseAux_cons_neg hnd false] at htail
            have h2 : runCollapseAux p false u' = u' := by
              injection htail
            rw [runCollapseAux_cons_neg hnd true, h2, hc]
      · have hp' : p c = false := by simpa using hp
        rw [runCollapseAux_cons_neg hp' false,
          ih (fun x hx hpx => hmem x (List.mem_cons_of_mem _ hx) hpx)
            (List.chain'_cons'.mp hch).2]

/-- The output of a collapse pass has no two adjacent `p`-characters, and
with the flag set it starts with a non-`p` character. -/
theorem chain_runCollapseAux {p : Char → Bool} :
    ∀ (w : List Char) (b : Bool),
      List.Chain' (noTwo p) (runCollapseAux p b w) ∧
        (∀ c t, runCollapseAux p true w = c :: t → p c = false) := by
  intro w
  induction w with
  | nil =>
      intro b
      refine ⟨List.chain'_nil, ?_⟩
      intro c t h
      simp [runCollapseAux] at h
  | cons a w ih =>
      intro b
      by_cases hp : p a
      · refine ⟨?_, ?_⟩
        · rcases b with _ | _
          · rw [runCollapseAux_cons_pos_false hp, List.chain'_cons']
            refine ⟨?_, (ih true).1⟩
            intro y hy
            cases hh : runCollapseAux p true w with
            | nil => rw [hh] at hy; simp at hy
            | cons c t =>
                rw [hh] at hy
                simp only [List.head?_cons, Option.mem_some_iff] at hy
                intro hpair
                subst hy
                simp [(ih true).2 c t hh] at hpair
          · rw [runCollapseAux_cons_pos_true hp]
            exact (ih true).1
        · intro c t h
          rw [runCollapseAux_cons_pos_true hp] at h
          exact (ih true).2 c t h
      · have hp' : p a = false := by simpa using hp
        refine ⟨?_, ?_⟩
        · rw [runCollapseAux_cons_neg hp' b, List.chain'_cons']
          refine ⟨?_, (ih false).1⟩
          intro y hy hpair
          rw [hp'] at hpair
          exact absurd hpair.1 (by simp)
        · intro c t h
          rw [runCollapseAux_cons_neg hp' true] at h
          have h1 : a = c := by injection h
          rw [← h1]
          exact hp'

/-- Characters of the marked string come from the placeholder or the
original string. -/
theorem mem_mark {c : Char} {w : List Char} (h : c ∈ mark w) :
    c ∈ marker ∨ c ∈ w := by
  simp only [mark, List.mem_flatMap] at h
  obtain ⟨a, ha, hc⟩ := h
  by_cases hd : a = '\n'
  · rw [if_pos hd] at hc
    exact Or.inl hc
  · rw [if_neg hd] at hc
    simp only [List.mem_singleton] at hc
    subst hc
    exact Or.inr ha

/-- Characters of the unmarked string are newlines or survive from the
input. -/
theorem mem_unmark_aux : ∀ (n : Nat) (w : List Char), w.length ≤ n →
    ∀ c ∈ unmark w, c = '\n' ∨ c ∈ w := by
  intro n
  induction n with
  | zero =>
      intro w h c hc
      have hw : w = [] := by
        cases w with
        | nil => rfl
        | cons a t => simp at h
      subst hw
      simp [unmark, unmarkGo] at hc
  | succ n ih =>
      intro w h c hc
      cases w with
      | nil => simp [unmark, unmarkGo] at hc
      | cons d t =>
          by_cases hm : marker <+: (d :: t)
          · obtain ⟨r, hr⟩ := hm
            rw [← hr, unmark_append_marker] at hc
            rcases List.mem_cons.mp hc with rfl | hc
            · exact Or.inl rfl
            · have hrlen : r.length ≤ n := by
                have hl := congrArg List.length hr
                simp only [List.length_append, List.length_cons] at hl h
                have hm9 : marker.length = 9 := rfl
                omega
              rcases ih r hrlen c hc with h1 | h1
              · exact Or.inl h1
              · right
                rw [← hr]
                exact List.mem_append.mpr (Or.inr h1)
          · rw [unmark_cons_of_ne hm] at hc
            rcases List.mem_cons.mp hc with rfl | hc
            · exact Or.inr (List.mem_cons_self _ _)
            · rcases ih t (by simp at h; omega) c hc with h1 | h1
              · exact Or.inl h1
              · exact Or.inr (List.mem_cons_of_mem _ h1)

/-- Membership form of `mem_unmark_aux`. -/
theorem mem_unmark {c : Char} {w : List Char} (h : c ∈ unmark w) :
    c = '\n' ∨ c ∈ w :=
  mem_unmark_aux w.length w le_rfl c h

/-- A newline-free pattern prefixing the unmarked string already prefixes
the input. -/
theorem pre_of_unmark_aux : ∀ (n : Nat) (w q : List Char), w.length ≤ n →
    '\n' ∉ q → q <+: unmark w → q <+: w := by
  intro n
  induction n with
  | zero =>
      intro w q h hq hp
      have hw : w = [] := by
        cases w with
        | nil => rfl
        | cons a t => simp at h
      subst hw
      exact hp
  | succ n ih =>
      intro w q h hq hp
      cases w with
      | nil => exact hp
      | cons d t =>
          by_cases hm : marker <+: (d :: t)
          · obtain ⟨r, hr⟩ := hm
            rw [← hr] at hp ⊢
            rw [unmark_append_marker] at hp
            cases q with
            | nil => exact List.nil_prefix
            | cons qh qt =>
                have h1 := (List.cons_prefix_cons.mp hp).1
                exact absurd (h1 ▸ List.mem_cons_self qh qt) hq
          · rw [unmark_cons_of_ne hm] at hp
            cases q with
            | nil => exact List.nil_prefix
            | cons qh qt =>
                obtain ⟨h1, h2⟩ := List.cons_prefix_cons.mp hp
                subst h1
                exact List.cons_prefix_cons.mpr ⟨rfl,
                  ih t qt (by simp at h; omega)
                    (fun hxx => hq (List.mem_cons_of_mem _ hxx)) h2⟩

/-- The unmarked string never contains the placeholder: the scan replaces
every occurrence and cannot recreate one. -/
theorem not_marker_infix_unmark_aux : ∀ (n : Nat) (w : List Char),
    w.length ≤ n → ¬ marker <:+: unmark w := by
  intro n
  induction n with
  | zero =>
      intro w h hcon
      have hw : w = [] := by
        cases w with
        | nil => rfl
        | cons a t => simp at h
      subst hw
      have : marker = [] := by
        simpa using List.eq_nil_of_infix_nil hcon
      simp [marker] at this
  | succ n ih =>
      intro w h hcon
      cases w with
      | nil =>
          have : marker = [] := by
            simpa using List.eq_nil_of_infix_nil hcon
          simp [marker] at this
      | cons d t =>
          by_cases hm : marker <+: (d :: t)
          · obtain ⟨r, hr⟩ := hm
            rw [← hr, unmark_append_marker] at hcon
            rcases List.infix_cons_iff.mp hcon with hc | hc
            · exact absurd (marker_head hc) (by decide)
            · have hrlen : r.length ≤ n := by
                have hl := congrArg List.length hr
                simp only [List.length_append, List.length_cons] at hl h
                have hm9 : marker.length = 9 := rfl
                omega
              exact ih r hrlen hc
          · rw [unmark_cons_of_ne hm] at hcon
            rcases List.infix_cons_iff.mp hcon with hc | hc
            · have hd : d = '<' := marker_head hc
              subst hd
              have htail := marker_tail hc
              have hq := pre_of_unmark_aux t.length t _ le_rfl (by decide) htail
              exact hm (List.cons_prefix_cons.mpr ⟨rfl, hq⟩)
            · exact ih t (by simp at h; omega) hc

/-- Closed form of `not_marker_infix_unmark_aux`. -/
theorem not_marker_infix_unmark (w : List Char) : ¬ marker <:+: unmark w :=
  not_marker_infix_unmark_aux w.length w le_rfl

/-- The head of the unmarked string is a newline or the head of the
input. -/
theorem unmark_head {w : List Char} {c : Char} {t : List Char}
    (h : unmark w = c :: t) : c = '\n' ∨ ∃ t', w = c :: t' := by
  cases w with
  | nil => simp [unmark, unmarkGo] at h
  | cons d w' =>
      by_cases hm : marker <+: (d :: w')
      · obtain ⟨r, hr⟩ := hm
        rw [← hr, unmark_append_marker] at h
        have h1 : '\n' = c := by injection h
        exact Or.inl h1.symm
      · rw [unmark_cons_of_ne hm] at h
        have h1 : d = c := by injection h
        exact Or.inr ⟨w', by rw [h1]⟩

/-- The unmark scan of a normalized whitespace-collapsed string has no two
adjacent non-newline whitespace characters. -/
theorem chain_unmark_aux : ∀ (n : Nat) (w : List Char), w.length ≤ n →
    (∀ c ∈ w, isPySpace c = true → c = ' ') →
    List.Chain' (noTwo isPySpace) w →
    List.Chain' (noTwo fun c => isPySpace c && !(c = '\n')) (unmark w) := by
  intro n
  induction n with
  | zero =>
      intro w h _ _
      have hw : w = [] := by
        cases w with
        | nil => rfl
        | cons a t => simp at h
      subst hw
      exact List.chain'_nil
  | succ n ih =>
      intro w h hmem hch
      cases w with
      | nil => exact List.chain'_nil
      | cons d t =>
          by_cases hm : marker <+: (d :: t)
          · obtain ⟨r, hr⟩ := hm
            rw [← hr, unmark_append_marker]
            rw [List.chain'_cons']
            constructor
            · intro y hy hpair
              exact absurd hpair.1 (by simp)
            · have hrlen : r.length ≤ n := by
                have hl := congrArg List.length hr
                simp only [List.length_append, List.length_cons] at hl h
                have hm9 : marker.length = 9 := rfl
                omega
              have hsuf : r <:+ d :: t := by
                rw [← hr]
                exact List.suffix_append marker r
              exact ih r hrlen
                (fun c hc hpc => hmem c (hsuf.subset hc) hpc)
                (hch.suffix hsuf)
          · rw [unmark_cons_of_ne hm, List.chain'_cons']
            constructor
            · intro y hy hpair
              have hd : isPySpace d = true := by
                have := hpair.1
                simp only [Bool.and_eq_true] at this
                exact this.1
              have hd' : d = ' ' := hmem d (List.mem_cons_self _ _) hd
              cases hh : unmark t with
              | nil => rw [hh] at hy; simp at hy
              | cons c' t' =>
                  rw [hh] at hy
                  simp only [List.head?_cons, Option.mem_some_iff] at hy
                  subst hy
                  rcases unmark_head hh with h0 | ⟨t'', ht⟩
                  · rw [h0] at hpair
                    have := hpair.2
                    simp at this
                  · have hch2 := hch
                    rw [ht] at hch2
                    have hpair0 := (List.chain'_cons'.mp hch2).1 c' (by simp)
                    apply hpair0
                    refine ⟨by rw [hd']; decide, ?_⟩
                    have h2 := hpair.2
                    simp only [Bool.and_eq_true] at h2
                    exact h2.1
            · exact ih t (by simp at h; omega)
                (fun c hc hpc => hmem c (List.mem_cons_of_mem _ hc) hpc)
                (List.chain'_cons'.mp hch).2

/-- Identity cases for the first two normalizer passes. -/
theorem stripBS_eq_self {l : List Char} (h : '\\' ∉ l) : stripBS l = l := by
  rw [stripBS, List.filter_eq_self]
  intro a ha
  by_contra hcon
  simp only [Bool.not_eq_true, Bool.not_eq_false'] at hcon
  have : a = '\\' := by simpa using hcon
  exact h (this ▸ ha)

/-- A map that fixes every element of the list is the identity there. -/
theorem map_id_of_fixed {l : List Char} {g : Char → Char}
    (h : ∀ c ∈ l, g c = c) : l.map g = l := by
  induction l with
  | nil => rfl
  | cons a l ih =>
      rw [List.map_cons, h a (List.mem_cons_self _ _),
        ih fun c hc => h c (List.mem_cons_of_mem _ hc)]

/-- `mapTab` is the identity on tab-free strings. -/
theorem mapTab_eq_self {l : List Char} (h : '\t' ∉ l) : mapTab l = l := by
  apply map_id_of_fixed
  intro c hc
  have hct : c ≠ '\t' := by
    intro e
    subst e
    exact h hc
  exact if_neg hct

/-- `mapTab` never outputs a tab. -/
theorem not_tab_mem_mapTab {l : List Char} : '\t' ∉ mapTab l := by
  intro hc
  obtain ⟨a, _, ha⟩ := List.mem_map.mp hc
  by_cases ht : a = '\t'
  · rw [if_pos ht] at ha
    cases ha
  · rw [if_neg ht] at ha
    exact ht ha

/-- `clean_prompt` is the identity on a string fixed by each of its own
passes. -/
theorem clean_fixed_of_facts (z : List Char) (rb cw pn : Bool)
    (hbs : rb = true → '\\' ∉ z)
    (htab : '\t' ∉ z)
    (hfix1 : cw = true → pn = true → unmark (collapseWs (mark z)) = z)
    (hfix2 : cw = true → pn = false → collapseWs z = z)
    (hstrip : pyStrip z = z) :
    clean_prompt z rb cw pn = z := by
  by_cases hz : z = []
  · subst hz
    simp [clean_prompt]
  · have ht1 : (if rb then stripBS z else z) = z := by
      rcases rb with _ | _
      · rw [if_neg (by simp)]
      · rw [if_pos rfl]
        exact stripBS_eq_self (hbs rfl)
    have ht2 : mapTab z = z := mapTab_eq_self htab
    simp only [clean_prompt, if_neg hz]
    rw [ht1, ht2]
    rcases cw with _ | _
    · rw [if_neg (by simp)]
      exact hstrip
    · rw [if_pos rfl]
      rcases pn with _ | _
      · rw [if_neg (by simp), hfix2 rfl rfl]
        exact hstrip
      · rw [if_pos rfl, hfix1 rfl rfl]
        exact hstrip

/-- `mapTab` cannot create a backslash. -/
theorem no_bs_mapTab {l : List Char} (h : '\\' ∉ l) : '\\' ∉ mapTab l := by
  intro hc
  obtain ⟨a, ha, hae⟩ := List.mem_map.mp hc
  by_cases ht : a = '\t'
  · rw [if_pos ht] at hae
    exact absurd hae (by decide)
  · rw [if_neg ht] at hae
    subst hae
    exact h ha

/-- `stripBS` removes every backslash. -/
theorem no_bs_stripBS {l : List Char} : '\\' ∉ stripBS l := by
  intro hc
  have h2 := (List.mem_filter.mp hc).2
  simp at h2

/-- The normalizer is idempotent: running `clean_prompt` on its own output,
with the same flags, changes nothing. -/
theorem clean_prompt_idem (x : List Char) (rb cw pn : Bool) :
    clean_prompt (clean_prompt x rb cw pn) rb cw pn =
      clean_prompt x rb cw pn := by
  by_cases hx : x = []
  · subst hx
    have h0 : clean_prompt [] rb cw pn = [] := by simp [clean_prompt]
    rw [h0, h0]
  · have hybs : rb = true → '\\' ∉ mapTab (if rb then stripBS x else x) := by
      intro hrb
      rw [hrb, if_pos rfl]
      exact no_bs_mapTab no_bs_stripBS
    have hytab : '\t' ∉ mapTab (if rb then stripBS x else x) :=
      not_tab_mem_mapTab
    rcases cw with _ | _
    · have hclean : clean_prompt x rb false pn =
          pyStrip (mapTab (if rb then stripBS x else x)) := by
        simp [clean_prompt, hx]
      rw [hclean]
      apply clean_fixed_of_facts
      · intro hrb hc
        exact hybs hrb ((pyStrip_inside _).sublist.subset hc)
      · intro hc
        exact hytab ((pyStrip_inside _).sublist.subset hc)
      · intro h
        simp at h
      · intro h
        simp at h
      · exact pyStrip_idem _
    · rcases pn with _ | _
      · have hclean : clean_prompt x rb true false =
            pyStrip (collapseWs (mapTab (if rb then stripBS x else x))) := by
          simp [clean_prompt, hx]
        rw [hclean]
        set y := mapTab (if rb then stripBS x else x) with hy
        have hzmem : ∀ c ∈ pyStrip (collapseWs y),
            c = ' ' ∨ (c ∈ y ∧ isPySpace c = false) := by
          intro c hc
          exact mem_runCollapseAux ((pyStrip_inside _).sublist.subset hc)
        apply clean_fixed_of_facts
        · intro hrb hc
          rcases hzmem _ hc with h1 | ⟨h1, _⟩
          · exact absurd h1 (by decide)
          · exact hybs hrb h1
        · intro hc
          rcases hzmem _ hc with h1 | ⟨_, h2⟩
          · exact absurd h1 (by decide)
          · exact absurd h2 (by decide)
        · intro _ h
          simp at h
        · intro _ _
          apply runCollapse_fixed
          · intro c hc hpc
            rcases hzmem c hc with h1 | ⟨_, h2⟩
            · exact h1
            · rw [hpc] at h2
              simp at h2
          · exact chain_sub (chain_runCollapseAux y false).1 (pyStrip_inside _)
        · exact pyStrip_idem _
      · have hclean : clean_prompt x rb true true =
            pyStrip (unmark (collapseWs
              (mark (mapTab (if rb then stripBS x else x))))) := by
          simp [clean_prompt, hx]
        rw [hclean]
        set y := mapTab (if rb then stripBS x else x) with hy
        set C := collapseWs (mark y) with hC
        have hCmem : ∀ c ∈ C, c = ' ' ∨ (c ∈ mark y ∧ isPySpace c = false) :=
          fun c hc => mem_runCollapseAux hc
        have hCws : ∀ c ∈ C, isPySpace c = true → c = ' ' := by
          intro c hc hpc
          rcases hCmem c hc with h1 | ⟨_, h2⟩
          · exact h1
          · rw [hpc] at h2
            simp at h2
        have hCchain : List.Chain' (noTwo isPySpace) C :=
          (chain_runCollapseAux (mark y) false).1
        have hzsub : ∀ c ∈ pyStrip (unmark C), c ∈ unmark C :=
          fun c hc => (pyStrip_inside _).sublist.subset hc
        have hzmem : ∀ c ∈ pyStrip (unmark C), c = '\n' ∨ c ∈ C :=
          fun c hc => mem_unmark (hzsub c hc)
        apply clean_fixed_of_facts
        · intro hrb hc
          rcases hzmem _ hc with h1 | h1
          · exact absurd h1 (by decide)
          · rcases hCmem _ h1 with h2 | ⟨h2, _⟩
            · exact absurd h2 (by decide)
            · rcases mem_mark h2 with h3 | h3
              · exact absurd h3 (by decide)
              · exact hybs hrb h3
        · intro hc
          rcases hzmem _ hc with h1 | h1
          · exact absurd h1 (by decide)
          · rcases hCmem _ h1 with h2 | ⟨_, h3⟩
            · exact absurd h2 (by decide)
            · exact absurd h3 (by decide)
        · intro _ _
          have hmf : ¬ marker <:+: pyStrip (unmark C) := fun hcon =>
            not_marker_infix_unmark C (hcon.trans (pyStrip_inside _))
          rw [show collapseWs (mark (pyStrip (unmark C))) =
            runCollapseAux isPySpace false (mark (pyStrip (unmark C))) from
            rfl]
          rw [unmark_collapse_mark _ hmf false]
          apply runCollapse_fixed
          · intro c hc hpc
            simp only [Bool.and_eq_true] at hpc
            rcases hzmem c hc with h1 | h1
            · subst h1
              simp at hpc
            · exact hCws c h1 hpc.1
          · have hUchain := chain_unmark_aux C.length C le_rfl hCws hCchain
            exact chain_sub hUchain (pyStrip_inside _)
        · intro _ h
          simp at h
        · exact pyStrip_idem _

/-- C8: on input whose whitespace is already collapsed (no two adjacent
whitespace characters), the normalizer is idempotent for every consistent
flag setting: `clean_prompt (clean_prompt x) = clean_prompt x` with the
same flags on both calls. -/
theorem C8_idempotent_on_collapsed (x : List Char)
    (hx : collapsedWs x = true) (rb cw pn : Bool) :
    clean_prompt (clean_prompt x rb cw pn) rb cw pn =
      clean_prompt x rb cw pn :=
  clean_prompt_idem x rb cw pn

/-- C8 witness: a collapsed input under the default-like flag setting. -/
theorem C8_idempotent_on_collapsed_witness :
    collapsedWs "ab c\nd".toList = true ∧
    clean_prompt (clean_prompt "ab c\nd".toList true true true) true true
        true = clean_prompt "ab c\nd".toList true true true :=
  ⟨by decide, C8_idempotent_on_collapsed _ (by decide) true true true⟩
